import Mathlib

/-! ### Definitions (the embedding) -/

/-- `String.toList` shorthand for writing concrete inputs. -/
def cs (s : String) : List Char := s.toList

/-- Python `\s` for the characters the chunker can meet (ASCII whitespace). -/
def isSpaceCh (c : Char) : Bool :=
  c = ' ' || c = '\t' || c = '\n' || c = '\r' || c = '\x0b' || c = '\x0c'

/-- Python `\d` (ASCII digits). -/
def isDigitCh (c : Char) : Bool := '0' ≤ c && c ≤ '9'

/-- `[a-z]` under `re.IGNORECASE`. -/
def isAlphaCh (c : Char) : Bool :=
  ('a' ≤ c && c ≤ 'z') || ('A' ≤ c && c ≤ 'Z')

/-- `[ivx]` under `re.IGNORECASE`. -/
def isIvxCh (c : Char) : Bool :=
  c = 'i' || c = 'v' || c = 'x' || c = 'I' || c = 'V' || c = 'X'

/-- The sentence-splitting punctuation class `[\.;!?]`. -/
def isPunctCh (c : Char) : Bool :=
  c = '.' || c = ';' || c = '!' || c = '?'

/-- Python `str.lstrip()`. -/
def lstripCh (s : List Char) : List Char := s.dropWhile isSpaceCh

/-- Python `str.rstrip()`. -/
def rstripCh (s : List Char) : List Char := (s.reverse.dropWhile isSpaceCh).reverse

/-- Python `str.strip()`. -/
def stripCh (s : List Char) : List Char := rstripCh (lstripCh s)

/-- Replace every maximal whitespace run by a single space; the `pend` flag
records a run in progress.  Used only on stripped input, exactly as the
source applies `re.sub(r"\s+", " ", text.strip())`. -/
def collapseWs : Bool → List Char → List Char
  | _, [] => []
  | pend, c :: rest =>
    if isSpaceCh c then collapseWs true rest
    else if pend then ' ' :: c :: collapseWs false rest
    else c :: collapseWs false rest

/-- `trim_whitespace` from the source: `re.sub(r"\s+", " ", text.strip())`. -/
def trim_whitespace (s : List Char) : List Char := collapseWs false (stripCh s)

/-- `estimate_tokens`: `max(1, (len(text) + 3) // 4)`. -/
def estimate_tokens (s : List Char) : Nat := max 1 ((s.length + 3) / 4)

/-- Python `str.splitlines()` restricted to the `\n`, `\r\n`, `\r`
terminators (the only ones the chunker's inputs contain). -/
def splitlinesAux : List Char → List Char → List (List Char)
  | cur, [] => if cur = [] then [] else [cur.reverse]
  | cur, '\r' :: '\n' :: rest => cur.reverse :: splitlinesAux [] rest
  | cur, '\r' :: rest => cur.reverse :: splitlinesAux [] rest
  | cur, '\n' :: rest => cur.reverse :: splitlinesAux [] rest
  | cur, c :: rest => splitlinesAux (c :: cur) rest

def splitlines (s : List Char) : List (List Char) := splitlinesAux [] s

/-- Case-insensitive prefix test, for the `re.IGNORECASE` literals. -/
def startsWithCI : List Char → List Char → Bool
  | [], _ => true
  | _ :: _, [] => false
  | p :: ps, c :: rest => p.toLower = c.toLower && startsWithCI ps rest

/-- Drop a case-insensitive literal prefix, `none` when it does not match. -/
def dropCI : List Char → List Char → Option (List Char)
  | [], s => some s
  | _ :: _, [] => none
  | p :: ps, c :: rest => if p.toLower = c.toLower then dropCI ps rest else none

/-- `TITLE_RE = ^\s*TITLE\s+(\d+)[\s\-:]*` (IGNORECASE), and its ARTICLE and
PART siblings: the keyword is parameterised.  Returns group 1 (the digit
run).  The trailing `[\s\-:]*` constrains nothing.  `\s+` and `\d+` are
maximal-munch here because the classes are disjoint. -/
def headerMatch (kw : List Char) (line : List Char) : Option (List Char) :=
  match dropCI kw (line.dropWhile isSpaceCh) with
  | none => none
  | some rest =>
    if (rest.takeWhile isSpaceCh).length = 0 then none
    else
      let rest2 := rest.dropWhile isSpaceCh
      let ds := rest2.takeWhile isDigitCh
      if ds.length = 0 then none else some ds

/-- One `-\d+` step of the section-number pattern: a literal dash followed
by a (maximal, non-empty) digit run; returns the digits and the rest. -/
def dashNumTail (r : List Char) : Option (List Char × List Char) :=
  match r with
  | [] => none
  | c :: r1 =>
    if c = '-' then
      let d := r1.takeWhile isDigitCh
      if d.length = 0 then none else some (d, r1.drop d.length)
    else none

/-- The optional `(?:\.\d+)?` extension of the number group: greedy, so it
participates exactly when a digit follows the dot; returns the matched text
and the rest. -/
def sectionExt (r3 : List Char) : List Char × List Char :=
  match r3 with
  | [] => ([], [])
  | c :: r3' =>
    if c = '.' then
      let d4 := r3'.takeWhile isDigitCh
      if d4.length = 0 then ([], c :: r3') else ('.' :: d4, r3'.drop d4.length)
    else ([], c :: r3')

/-- The optional `[\.]?` after the number group. -/
def dropOptDot (r : List Char) : List Char :=
  match r with
  | [] => []
  | c :: r' => if c = '.' then r' else c :: r'

/-- `SECTION_START_RE = ^(?P<num>\d+-\d+-\d+(?:\.\d+)?)[\.]?\s*(?P<title>.*)$`.
Returns the `num` and `title` groups; `num` is later `.strip()`-ed (a no-op)
and `title` `.strip()`-ed by the caller.  Every quantifier here is
backtrack-free: `\d+` is always followed by characters outside `\d`, and
everything after the `num` group is optional. -/
def section_start_match (line : List Char) : Option (List Char × List Char) :=
  let d1 := line.takeWhile isDigitCh
  if d1.length = 0 then none else
  match dashNumTail (line.drop d1.length) with
  | none => none
  | some p2 =>
    match dashNumTail p2.2 with
    | none => none
    | some p3 =>
      let ext := sectionExt p3.2
      let num := d1 ++ '-' :: p2.1 ++ '-' :: p3.1 ++ ext.1
      some (num, (dropOptDot ext.2).dropWhile isSpaceCh)

/-- `EDITORS_NOTE_RE.search(line)`: the pattern's three alternatives are all
anchored with `^\s*`, so `search` is a case-insensitive prefix test after
leading whitespace. -/
def editors_note_match (line : List Char) : Bool :=
  let t := line.dropWhile isSpaceCh
  startsWithCI (cs "editor\x27s note:") t ||
  startsWithCI (cs "editors note:") t ||
  startsWithCI (cs "editor’s note:") t

/-- The inner alternation of `SUBSECTION_RE = \((?:\d+|[a-z]|[ivx]+)\)`
(IGNORECASE), tried in pattern order against the text following `(`.
`\d+` and `[ivx]+` admit no shorter backtracked match because a shorter run
ends at a character of the same class, never at `)`. -/
def subsec_inner (rest : List Char) : Option (List Char) :=
  let ds := rest.takeWhile isDigitCh
  if ds.length > 0 && (rest.drop ds.length).headD ' ' = ')' then some ds
  else
    let letterHit := match rest with
      | a :: b :: _ => isAlphaCh a && b = ')'
      | _ => false
    if letterHit then some [rest.headD ' ']
    else
      let run := rest.takeWhile isIvxCh
      if run.length > 0 && (rest.drop run.length).headD ' ' = ')' then some run
      else none

/-- One attempted `SUBSECTION_RE` match at the current position, returning
the matched text (`group("mark")`). -/
def subsec_match_at (s : List Char) : Option (List Char) :=
  match s with
  | [] => none
  | c :: rest =>
    if c = '(' then (subsec_inner rest).map (fun inner => '(' :: (inner ++ [')']))
    else none

/-- `SUBSECTION_RE.finditer`: scan left to right, record non-overlapping
matches with their start offsets, resume after each match's end.  Each step
consumes at least one character, so fuel `length + 1` suffices. -/
def finditer_subsec_fuel : Nat → Nat → List Char → List (Nat × List Char)
  | 0, _, _ => []
  | _ + 1, _, [] => []
  | fuel + 1, pos, c :: rest =>
    match subsec_match_at (c :: rest) with
    | some mark =>
      (pos, mark) :: finditer_subsec_fuel fuel (pos + mark.length) ((c :: rest).drop mark.length)
    | none => finditer_subsec_fuel fuel (pos + 1) rest

def finditer_subsec (s : List Char) : List (Nat × List Char) :=
  finditer_subsec_fuel (s.length + 1) 0 s

/-- `split_on_sentences`: scan for `([\.;!?])(\s+)` matches; each span runs
from the previous match's end to this match's end and is stripped; the
stripped tail is appended when non-empty; empty parts are filtered.  The
accumulator holds the current span reversed. -/
def sos_fuel : Nat → List Char → List Char → List (List Char)
  | 0, _, _ => []
  | _ + 1, cur, [] =>
    let tail := stripCh cur.reverse
    if tail = [] then [] else [tail]
  | fuel + 1, cur, c :: rest =>
    let w := rest.takeWhile isSpaceCh
    if isPunctCh c && w.length > 0 then
      stripCh (cur.reverse ++ c :: w) :: sos_fuel fuel [] (rest.drop w.length)
    else sos_fuel fuel (c :: cur) rest

def split_on_sentences (text : List Char) : List (List Char) :=
  (sos_fuel (text.length + 1) [] text).filter (· ≠ [])

/-- The `LegalChunk` dataclass. -/
structure LegalChunk where
  content : List Char
  section_number : List Char
  section_title : List Char
  subsection : Option (List Char)
  hierarchy : List (List Char)
  full_citation : List Char
  token_count : Nat
deriving DecidableEq

/-- `LegalChunker._make_chunk`. -/
def make_chunk (content num title : List Char) (sub : Option (List Char))
    (hier : List (List Char)) : LegalChunk :=
  { content := content
    section_number := num
    section_title := title
    subsection := sub
    hierarchy := hier
    full_citation := stripCh (num ++ '.' :: ' ' :: title)
    token_count := estimate_tokens content }

/-- `LegalChunker._hard_split`'s while loop: slices of `max_chars`
characters, trimmed, emitted when non-empty.  When `max_chars = 0` the
Python loop never advances (the constructor's bounds check rules that out);
the fuel then runs out harmlessly. -/
def hard_split_fuel (maxChars : Nat) (num title : List Char)
    (sub : Option (List Char)) (hier : List (List Char)) :
    Nat → List Char → List LegalChunk
  | 0, _ => []
  | _ + 1, [] => []
  | fuel + 1, t =>
    let piece := trim_whitespace (t.take maxChars)
    (if piece = [] then [] else [make_chunk piece num title sub hier]) ++
      hard_split_fuel maxChars num title sub hier fuel (t.drop maxChars)

def hard_split (maxT : Nat) (text num title : List Char)
    (sub : Option (List Char)) (hier : List (List Char)) : List LegalChunk :=
  hard_split_fuel (maxT * 4) num title sub hier (text.length + 1) text

/-- Python `" ".join(...)`. -/
def joinSp : List (List Char) → List Char
  | [] => []
  | [x] => x
  | x :: y :: t => x ++ ' ' :: joinSp (y :: t)

/-- The greedy sentence-accumulation loop of `_chunk_text_body`: buffer
consecutive sentences, flush when adding the next would exceed `max_tokens`
(a first sentence is always taken, however large). -/
def accum_sentences (maxT : Nat) (num title : List Char)
    (sub : Option (List Char)) (hier : List (List Char)) :
    List (List Char) → List (List Char) → Nat → List LegalChunk
  | [], current, _ =>
    if current = [] then []
    else
      let piece := trim_whitespace (joinSp current)
      if piece = [] then [] else [make_chunk piece num title sub hier]
  | sent :: rest, current, clen =>
    let s := trim_whitespace sent
    if s = [] then accum_sentences maxT num title sub hier rest current clen
    else
      let tks := estimate_tokens s
      if current ≠ [] && maxT < clen + tks then
        let piece := trim_whitespace (joinSp current)
        (if piece = [] then [] else [make_chunk piece num title sub hier]) ++
          accum_sentences maxT num title sub hier rest [s] tks
      else accum_sentences maxT num title sub hier rest (current ++ [s]) (clen + tks)

/-- `LegalChunker._chunk_text_body`.  The source's
`if tokens < self.min_tokens: pass` is a literal no-op, so `minT` is
threaded but (faithfully) never consulted. -/
def chunk_text_body (minT maxT : Nat) (num title : List Char)
    (sub : Option (List Char)) (hier : List (List Char)) (body : List Char) :
    List LegalChunk :=
  let text := trim_whitespace body
  if text = [] then []
  else if estimate_tokens text ≤ maxT then
    [make_chunk text num title sub hier]
  else
    let sentences := split_on_sentences text
    if sentences = [] then hard_split maxT text num title sub hier
    else accum_sentences maxT num title sub hier sentences [] 0

/-- The span construction of `_split_by_subsections`: each span runs from
its marker's start to the next marker's start (or the end of the text); the
marker is removed from the stored body. -/
def subsec_pieces (text : List Char) : List (Nat × List Char) → List (List Char × List Char)
  | [] => []
  | (pos, mark) :: rest =>
    let endPos := match rest with
      | [] => text.length
      | (p, _) :: _ => p
    let body := (text.drop pos).take (endPos - pos)
    (mark, trim_whitespace (body.drop mark.length)) :: subsec_pieces text rest

/-- `LegalChunker._split_by_subsections`: fewer than two markers signals
"no meaningful subsections". -/
def split_by_subsections (text : List Char) : List (List Char × List Char) :=
  let ms := finditer_subsec text
  if ms.length < 2 then [] else subsec_pieces text ms

/-- First-pass scanner state of `parse_document`: collected sections plus
the open buffer (`buffer_section_number`, `buffer_section_title`,
`buffer_lines`). -/
structure ScanState where
  sections : List (List Char × List Char × List (List Char))
  bufNum : Option (List Char)
  bufTitle : List Char
  bufLines : List (List Char)
deriving DecidableEq

/-- `flush_section`: emit the buffered section when it has an identifier and
at least one buffered line; always clear the buffer. -/
def flush_section (st : ScanState) : ScanState :=
  match st.bufNum with
  | some n =>
    if st.bufLines ≠ [] then
      { sections := st.sections ++ [(n, st.bufTitle, st.bufLines)]
        bufNum := none, bufTitle := [], bufLines := [] }
    else { st with bufNum := none, bufTitle := [], bufLines := [] }
  | none => { st with bufNum := none, bufTitle := [], bufLines := [] }

/-- One line of the first pass: skip editor's notes, flush on headers, open
a section on a section-start match, otherwise buffer the line when a
section is open. -/
def scan_line (st : ScanState) (rawLine : List Char) : ScanState :=
  let line := rstripCh rawLine
  if editors_note_match line then st
  else if (headerMatch (cs "TITLE") line).isSome then flush_section st
  else if (headerMatch (cs "ARTICLE") line).isSome then flush_section st
  else if (headerMatch (cs "PART") line).isSome then flush_section st
  else
    match section_start_match line with
    | some nt =>
      let st' := flush_section st
      { st' with bufNum := some (stripCh nt.1), bufTitle := stripCh nt.2, bufLines := [] }
    | none =>
      match st.bufNum with
      | some _ => { st with bufLines := st.bufLines ++ [line] }
      | none => st

def run_scan (lines : List (List Char)) : ScanState :=
  flush_section (lines.foldl scan_line ⟨[], none, [], []⟩)

/-- Second-pass state: the three hierarchy slots and the snapshots taken at
each section-start line.  Note the source does not skip editor's-note lines
here, and neither do we (such a line can match none of the patterns). -/
structure HierState where
  curTitle : Option (List Char)
  curArticle : Option (List Char)
  curPart : Option (List Char)
  snaps : List (List (List Char))
deriving DecidableEq

/-- One line of the secondary hierarchy pass: TITLE resets ARTICLE and PART,
ARTICLE resets PART, PART sets only itself; a section start snapshots the
current slots. -/
def hier_line (st : HierState) (rawLine : List Char) : HierState :=
  let line := rstripCh rawLine
  match headerMatch (cs "TITLE") line with
  | some d => { st with curTitle := some (cs "TITLE " ++ d), curArticle := none, curPart := none }
  | none =>
  match headerMatch (cs "ARTICLE") line with
  | some d => { st with curArticle := some (cs "ARTICLE " ++ d), curPart := none }
  | none =>
  match headerMatch (cs "PART") line with
  | some d => { st with curPart := some (cs "PART " ++ d) }
  | none =>
    if (section_start_match line).isSome then
      { st with snaps := st.snaps ++ [[st.curTitle, st.curArticle, st.curPart].filterMap id] }
    else st

/-- The count-mismatch repair of `parse_document`: pad with the last known
snapshot, or truncate, or synthesise empty snapshots.  The result always
has exactly `nsec` entries (or equals `sh` when both are empty). -/
def align_hierarchies (sh : List (List (List Char))) (nsec : Nat) :
    List (List (List Char)) :=
  if sh ≠ [] ∧ sh.length ≠ nsec then
    if sh.length < nsec then sh ++ List.replicate (nsec - sh.length) (sh.getLastD [])
    else sh.take nsec
  else if sh = [] ∧ nsec ≠ 0 then List.replicate nsec []
  else sh

/-- The per-section chunking of `parse_document`'s final loop. -/
def emit_one (minT maxT : Nat) (num title : List Char)
    (hier : List (List Char)) (section_text : List Char) : List LegalChunk :=
  let subs := split_by_subsections section_text
  if subs = [] then chunk_text_body minT maxT num title none hier section_text
  else
    subs.flatMap fun p =>
      if maxT < estimate_tokens p.2 then
        let subsubs := split_by_subsections p.2
        if subsubs = [] then chunk_text_body minT maxT num title (some p.1) hier p.2
        else subsubs.flatMap fun q =>
          chunk_text_body minT maxT num title (some (p.1 ++ q.1)) hier q.2
      else chunk_text_body minT maxT num title (some p.1) hier p.2

/-- The final loop of `parse_document`: the hierarchy list is consumed in
lockstep with the sections (`section_hierarchies[idx] if idx < len(...)
else []`). -/
def emit_sections (minT maxT : Nat) :
    List (List Char × List Char × List (List Char)) →
    List (List (List Char)) → List LegalChunk
  | [], _ => []
  | sec :: rest, sh =>
    let section_text := trim_whitespace (joinSp (sec.2.2.filter (· ≠ [])))
    (if section_text = [] then []
     else emit_one minT maxT sec.1 sec.2.1 (sh.headD []) section_text) ++
      emit_sections minT maxT rest sh.tail

/-- `LegalChunker.parse_document`, bounds supplied as the constructor's
`min_tokens`/`max_tokens` fields. -/
def parse_document (minT maxT : Nat) (text : List Char) : List LegalChunk :=
  let lines := splitlines text
  let sections := (run_scan lines).sections
  let sh0 := (lines.foldl hier_line ⟨none, none, none, []⟩).snaps
  let sh := align_hierarchies sh0 sections.length
  emit_sections minT maxT sections sh

/-- Decimal digit character. -/
def digitCh : Nat → Char
  | 0 => '0' | 1 => '1' | 2 => '2' | 3 => '3' | 4 => '4'
  | 5 => '5' | 6 => '6' | 7 => '7' | 8 => '8' | _ => '9'

/-- Little-endian decimal digits; `n + 1` fuel always suffices. -/
def natDigitsRevFuel : Nat → Nat → List Char
  | 0, _ => []
  | fuel + 1, n =>
    if n < 10 then [digitCh n] else digitCh (n % 10) :: natDigitsRevFuel fuel (n / 10)

/-- Python `str(n)` for a natural number. -/
def natRepr (n : Nat) : List Char := (natDigitsRevFuel (n + 1) n).reverse

/-- `LegalChunk.get_searchable_text`. -/
def get_searchable_text (ch : LegalChunk) : List Char :=
  let hierarchy_str := List.intercalate (cs " | ") ch.hierarchy
  let citation := stripCh (ch.section_number ++ '.' :: ' ' :: ch.section_title)
  trim_whitespace (hierarchy_str ++ cs " || " ++ citation ++ '\n' :: ch.content)

/-- The metadata record built by `prepare_for_chromadb`. -/
structure ChromaMeta where
  section_number : List Char
  section_title : List Char
  subsection : List Char
  hierarchy : List Char
  full_citation : List Char
  token_count : Nat
  chunk_index : Nat
deriving DecidableEq

/-- Python-dict read with default 0 (`base_id_counts.get(base_id, 0)`). -/
def dictGet (d : List (List Char × Nat)) (k : List Char) : Nat :=
  match d.find? (fun p => p.1 == k) with
  | some p => p.2
  | none => 0

/-- Python-dict write (`base_id_counts[base_id] = idx + 1`). -/
def dictSet (d : List (List Char × Nat)) (k : List Char) (v : Nat) :
    List (List Char × Nat) :=
  (k, v) :: d.filter (fun p => p.1 != k)

/-- `base_id`: `section_number` alone when the subsection is `None` or the
empty string (Python falsiness), else `f"{section_number}_{subsection}"`. -/
def chunkBase (ch : LegalChunk) : List Char :=
  match ch.subsection with
  | none => ch.section_number
  | some sub => if sub = [] then ch.section_number else ch.section_number ++ '_' :: sub

/-- The loop body of `prepare_for_chromadb`, recursing over the chunks with
the running `base_id_counts`. -/
def prepare_aux : List (List Char × Nat) → List LegalChunk →
    List (List Char) × List ChromaMeta × List (List Char)
  | _, [] => ([], [], [])
  | counts, ch :: rest =>
    let base := chunkBase ch
    let idx := dictGet counts base
    let counts' := dictSet counts base (idx + 1)
    let uid := if idx = 0 then base else base ++ '#' :: natRepr idx
    let r := prepare_aux counts' rest
    (get_searchable_text ch :: r.1,
     { section_number := ch.section_number
       section_title := ch.section_title
       subsection := ch.subsection.getD []
       hierarchy := List.intercalate (cs " | ") ch.hierarchy
       full_citation := ch.full_citation
       token_count := ch.token_count
       chunk_index := idx } :: r.2.1,
     uid :: r.2.2)

/-- `LegalChunker.prepare_for_chromadb`. -/
def prepare_for_chromadb (chunks : List LegalChunk) :
    List (List Char) × List ChromaMeta × List (List Char) :=
  prepare_aux [] chunks

/-- `LegalChunker.__init__`: raises `ValueError` on invalid bounds.  Bounds
are Python ints, modelled as `Int`. -/
def LegalChunker.init (min_tokens max_tokens : Int) : Except (List Char) (Int × Int) :=
  if min_tokens ≤ 0 ∨ max_tokens ≤ 0 ∨ min_tokens ≥ max_tokens then
    .error (cs "Invalid token bounds for chunker")
  else .ok (min_tokens, max_tokens)

def dropWs (s : List Char) : List Char := s.filter (fun c => !isSpaceCh c)

def readDigitsRev : List Char → Nat
  | [] => 0
  | c :: rest => (c.toNat - 48) + 10 * readDigitsRev rest

/-- The identifier `prepare_for_chromadb` assigns to a chunk whose base
occurs for the `k`-th time: `base` itself for `k = 0`, else `base#k`. -/
def encodeId (b : List Char) (k : Nat) : List Char :=
  if k = 0 then b else b ++ '#' :: natRepr k

/-- Invariant of the first pass: no collected or buffered section number
contains `#`. -/
def scanNoHash (st : ScanState) : Prop :=
  (∀ sec ∈ st.sections, '#' ∉ sec.1) ∧ (∀ n, st.bufNum = some n → '#' ∉ n)

/-! ### Theorems -/

theorem subsec_match_at_length {s mark : List Char}
    (h : subsec_match_at s = some mark) : 1 ≤ mark.length := by
  unfold subsec_match_at at h
  match s with
  | [] => simp at h
  | c :: rest =>
    simp only at h
    split at h
    · rcases Option.map_eq_some'.mp h with ⟨inner, -, rfl⟩
      simp
    · simp at h

/-- A quick sanity check of the matchers on the source's example strings. -/
example : headerMatch (cs "TITLE") (cs "TITLE 17") = some (cs "17") := by decide

example : headerMatch (cs "TITLE") (cs "CORRECTIONS") = none := by decide

example : section_start_match (cs "17-1-101. Executive director.") =
    some (cs "17-1-101", cs "Executive director.") := by decide

example : section_start_match (cs "17-1-101.5 Rest") =
    some (cs "17-1-101.5", cs "Rest") := by decide

example : finditer_subsec (cs "(1) aa (2) bb") =
    [(0, cs "(1)"), (7, cs "(2)")] := by decide

example : finditer_subsec (cs "(iv) x (a) y") =
    [(0, cs "(iv)"), (7, cs "(a)")] := by decide

example : trim_whitespace (cs "  a   b\t c  ") = cs "a b c" := by decide

example : splitlines (cs "a\nb\n") = [cs "a", cs "b"] := by decide

example : estimate_tokens (cs "abcdefghijkl") = 3 := by decide

example : split_on_sentences (cs "One. Two; three! End") =
    [cs "One.", cs "Two;", cs "three!", cs "End"] := by decide

example : natRepr 1 = cs "1" := by decide

example : natRepr 210 = cs "210" := by decide

example : split_by_subsections (cs "pre (1) aa (2) bb") =
    [(cs "(1)", cs "aa"), (cs "(2)", cs "bb")] := by decide

theorem dropWs_append (a b : List Char) : dropWs (a ++ b) = dropWs a ++ dropWs b :=
  List.filter_append _ _

theorem dropWs_eq_nil_all {s : List Char} (h : ∀ c ∈ s, isSpaceCh c = true) :
    dropWs s = [] := by
  simp only [dropWs, List.filter_eq_nil_iff]
  intro c hc
  simp [h c hc]

theorem all_space_of_dropWs_eq_nil {s : List Char} (h : dropWs s = []) :
    ∀ c ∈ s, isSpaceCh c = true := by
  intro c hc
  by_contra hns
  have : c ∈ dropWs s := by
    simp [dropWs, List.mem_filter, hc]
    simpa using hns
  simp [h] at this

theorem dropWs_reverse (s : List Char) : dropWs s.reverse = (dropWs s).reverse := by
  simp [dropWs, List.filter_reverse]

theorem dropWs_lstrip (s : List Char) : dropWs (lstripCh s) = dropWs s := by
  conv_rhs => rw [← List.takeWhile_append_dropWhile isSpaceCh s]
  rw [dropWs_append, dropWs_eq_nil_all (fun c hc => List.mem_takeWhile_imp hc)]
  rfl

theorem dropWs_rstrip (s : List Char) : dropWs (rstripCh s) = dropWs s := by
  unfold rstripCh
  rw [dropWs_reverse, show s.reverse.dropWhile isSpaceCh = lstripCh s.reverse from rfl,
    dropWs_lstrip, dropWs_reverse, List.reverse_reverse]

theorem dropWs_strip (s : List Char) : dropWs (stripCh s) = dropWs s := by
  unfold stripCh
  rw [dropWs_rstrip, dropWs_lstrip]

theorem dropWs_collapse (s : List Char) : ∀ b, dropWs (collapseWs b s) = dropWs s := by
  induction s with
  | nil => intro b; rfl
  | cons c rest ih =>
    intro b
    have hsp : isSpaceCh ' ' = true := by decide
    by_cases hc : isSpaceCh c = true
    · rw [show collapseWs b (c :: rest) = collapseWs true rest by simp [collapseWs, hc]]
      rw [ih true]
      simp [dropWs, List.filter_cons, hc]
    · cases b
      · rw [show collapseWs false (c :: rest) = c :: collapseWs false rest by
          simp [collapseWs, hc]]
        have := ih false
        simp only [dropWs, List.filter_cons] at this ⊢
        simp [hc, this]
      · rw [show collapseWs true (c :: rest) = ' ' :: c :: collapseWs false rest by
          simp [collapseWs, hc]]
        have := ih false
        simp only [dropWs, List.filter_cons] at this ⊢
        simp [hc, hsp, this]

theorem dropWs_trim (s : List Char) : dropWs (trim_whitespace s) = dropWs s := by
  unfold trim_whitespace
  rw [dropWs_collapse, dropWs_strip]

theorem dropWs_joinSp (l : List (List Char)) : dropWs (joinSp l) = dropWs l.flatten := by
  match l with
  | [] => rfl
  | [x] => simp [joinSp]
  | x :: y :: t =>
    rw [joinSp, List.flatten_cons, dropWs_append, dropWs_append]
    have : dropWs (' ' :: joinSp (y :: t)) = dropWs (joinSp (y :: t)) := by
      simp [dropWs, List.filter_cons, show isSpaceCh ' ' = true from by decide]
    rw [this, dropWs_joinSp (y :: t)]

theorem trim_eq_nil_of_dropWs {s : List Char} (h : dropWs s = []) :
    trim_whitespace s = [] := by
  have hall := all_space_of_dropWs_eq_nil h
  have hl : lstripCh s = [] := by
    rw [lstripCh, List.dropWhile_eq_nil_iff]
    intro c hc
    exact hall c hc
  unfold trim_whitespace stripCh
  rw [hl]
  rfl

theorem dropWs_of_trim_eq_nil {s : List Char} (h : trim_whitespace s = []) :
    dropWs s = [] := by
  rw [← dropWs_trim, h]
  rfl

theorem lstrip_length_le (s : List Char) : (lstripCh s).length ≤ s.length :=
  (List.dropWhile_sublist _).length_le

theorem rstrip_length_le (s : List Char) : (rstripCh s).length ≤ s.length := by
  unfold rstripCh
  rw [List.length_reverse]
  calc (s.reverse.dropWhile isSpaceCh).length ≤ s.reverse.length :=
        (List.dropWhile_sublist _).length_le
    _ = s.length := List.length_reverse s

theorem strip_length_le (s : List Char) : (stripCh s).length ≤ s.length :=
  le_trans (rstrip_length_le _) (lstrip_length_le _)

theorem collapse_length_le (s : List Char) :
    (collapseWs false s).length ≤ s.length ∧
      (collapseWs true s).length ≤ s.length + 1 := by
  induction s with
  | nil => simp [collapseWs]
  | cons c rest ih =>
    obtain ⟨h0, h1⟩ := ih
    by_cases hc : isSpaceCh c = true
    · constructor
      · rw [show collapseWs false (c :: rest) = collapseWs true rest by
          simp [collapseWs, hc]]
        simpa using h1
      · rw [show collapseWs true (c :: rest) = collapseWs true rest by
          simp [collapseWs, hc]]
        simp only [List.length_cons]
        omega
    · constructor
      · rw [show collapseWs false (c :: rest) = c :: collapseWs false rest by
          simp [collapseWs, hc]]
        simp only [List.length_cons]
        omega
      · rw [show collapseWs true (c :: rest) = ' ' :: c :: collapseWs false rest by
          simp [collapseWs, hc]]
        simp only [List.length_cons]
        omega

theorem trim_length_le (s : List Char) : (trim_whitespace s).length ≤ s.length := by
  unfold trim_whitespace
  exact le_trans (collapse_length_le (stripCh s)).1 (strip_length_le s)

theorem lstrip_of_no_space {s : List Char} (h : ∀ c ∈ s, isSpaceCh c = false) :
    lstripCh s = s := by
  cases s with
  | nil => rfl
  | cons c rest => simp [lstripCh, List.dropWhile_cons, h c (by simp)]

theorem rstrip_of_no_space {s : List Char} (h : ∀ c ∈ s, isSpaceCh c = false) :
    rstripCh s = s := by
  unfold rstripCh
  rw [show s.reverse.dropWhile isSpaceCh = lstripCh s.reverse from rfl,
    lstrip_of_no_space (fun c hc => h c (List.mem_reverse.mp hc)), List.reverse_reverse]

theorem strip_of_no_space {s : List Char} (h : ∀ c ∈ s, isSpaceCh c = false) :
    stripCh s = s := by
  unfold stripCh
  rw [lstrip_of_no_space h, rstrip_of_no_space h]

theorem collapse_of_no_space {s : List Char} (h : ∀ c ∈ s, isSpaceCh c = false) :
    collapseWs false s = s := by
  induction s with
  | nil => rfl
  | cons c rest ih =>
    rw [show collapseWs false (c :: rest) = c :: collapseWs false rest by
      simp [collapseWs, h c (by simp)]]
    rw [ih (fun x hx => h x (by simp [hx]))]

theorem trim_of_no_space {s : List Char} (h : ∀ c ∈ s, isSpaceCh c = false) :
    trim_whitespace s = s := by
  unfold trim_whitespace
  rw [strip_of_no_space h, collapse_of_no_space h]

theorem punct_not_space {c : Char} (h : isPunctCh c = true) : isSpaceCh c = false := by
  simp only [isPunctCh, Bool.or_eq_true, decide_eq_true_eq] at h
  rcases h with ((h | h) | h) | h <;> subst h <;> decide

theorem digit_ne_hash {c : Char} (h : isDigitCh c = true) : c ≠ '#' := by
  intro hc
  subst hc
  simp [isDigitCh] at h

theorem alpha_ne_hash {c : Char} (h : isAlphaCh c = true) : c ≠ '#' := by
  intro hc
  subst hc
  simp [isAlphaCh] at h

theorem ivx_ne_hash {c : Char} (h : isIvxCh c = true) : c ≠ '#' := by
  intro hc
  subst hc
  simp [isIvxCh] at h

/-- `l = takeWhile p l ++ drop (takeWhile p l).length l`. -/
theorem takeWhile_append_drop_length (p : Char → Bool) :
    ∀ l : List Char, l.takeWhile p ++ l.drop (l.takeWhile p).length = l := by
  intro l
  induction l with
  | nil => rfl
  | cons c t ih =>
    by_cases h : p c
    · simp [List.takeWhile_cons, h, ih]
    · simp [List.takeWhile_cons, h]

theorem dropWs_cons (c : Char) (x : List Char) :
    dropWs (c :: x) = (if isSpaceCh c = true then [] else [c]) ++ dropWs x := by
  simp only [dropWs, List.filter_cons]
  by_cases h : isSpaceCh c = true <;> simp [h]

/-- The spans produced by the sentence scanner cover the input: their
concatenation has exactly the input's non-whitespace characters (after the
pending prefix `cur`). -/
theorem sos_fuel_flatten :
    ∀ (fuel : Nat) (cur s : List Char), s.length < fuel →
      dropWs (List.flatten (sos_fuel fuel cur s)) = dropWs cur.reverse ++ dropWs s := by
  intro fuel
  induction fuel with
  | zero => intro cur s h; exact absurd h (Nat.not_lt_zero _)
  | succ fuel ih =>
    intro cur s h
    cases s with
    | nil =>
      simp only [sos_fuel]
      by_cases ht : stripCh cur.reverse = []
      · rw [if_pos ht]
        have h2 := dropWs_strip cur.reverse
        rw [ht] at h2
        have h3 : dropWs cur.reverse = [] := h2.symm
        rw [List.flatten_nil, h3, List.nil_append]
      · rw [if_neg ht]
        have hfl : List.flatten [stripCh cur.reverse] = stripCh cur.reverse := by simp
        rw [hfl, dropWs_strip, show dropWs ([] : List Char) = [] from rfl, List.append_nil]
    | cons c rest =>
      simp only [sos_fuel]
      split
      case isTrue hc =>
        rw [Bool.and_eq_true] at hc
        obtain ⟨hpc, -⟩ := hc
        have hcs : ¬(isSpaceCh c = true) := by simp [punct_not_space hpc]
        have hrest : rest.length < fuel := by
          simp only [List.length_cons] at h
          omega
        have hdrop : (rest.drop (rest.takeWhile isSpaceCh).length).length < fuel := by
          rw [List.length_drop]
          omega
        have hwnil : dropWs (rest.takeWhile isSpaceCh) = [] :=
          dropWs_eq_nil_all (fun x hx => List.mem_takeWhile_imp hx)
        have hsplit : dropWs rest = dropWs (rest.drop (rest.takeWhile isSpaceCh).length) := by
          conv_lhs => rw [← takeWhile_append_drop_length isSpaceCh rest]
          rw [dropWs_append, hwnil, List.nil_append]
        rw [List.flatten_cons, dropWs_append, ih [] _ hdrop, dropWs_strip, dropWs_append,
          dropWs_cons c _, if_neg hcs, hwnil, dropWs_cons c rest, if_neg hcs, hsplit]
        simp [dropWs]
      case isFalse hc =>
        have hrest : rest.length < fuel := by
          simp only [List.length_cons] at h
          omega
        rw [ih (c :: cur) rest hrest]
        rw [List.reverse_cons, dropWs_append, dropWs_cons c rest]
        by_cases hcs : isSpaceCh c = true <;> simp [hcs, dropWs]

theorem split_on_sentences_flatten (s : List Char) :
    dropWs (List.flatten (split_on_sentences s)) = dropWs s := by
  unfold split_on_sentences
  rw [List.flatten_filter_ne_nil]
  have := sos_fuel_flatten (s.length + 1) [] s (by omega)
  simpa [dropWs] using this

theorem split_on_sentences_eq_nil {s : List Char}
    (h : split_on_sentences s = []) : dropWs s = [] := by
  have := split_on_sentences_flatten s
  rw [h] at this
  simpa [dropWs] using this.symm

/-- On punctuation-free text the scanner never matches, so the whole
(stripped) input is the single piece. -/
theorem sos_fuel_no_punct :
    ∀ (fuel : Nat) (cur s : List Char), s.length < fuel →
      (∀ c ∈ s, isPunctCh c = false) →
      sos_fuel fuel cur s =
        (if stripCh (cur.reverse ++ s) = [] then [] else [stripCh (cur.reverse ++ s)]) := by
  intro fuel
  induction fuel with
  | zero => intro cur s h; exact absurd h (Nat.not_lt_zero _)
  | succ fuel ih =>
    intro cur s h hnp
    cases s with
    | nil => simp [sos_fuel]
    | cons c rest =>
      simp only [sos_fuel]
      rw [if_neg (by simp [hnp c (by simp)])]
      have hrest : rest.length < fuel := by
        simp only [List.length_cons] at h
        omega
      rw [ih (c :: cur) rest hrest (fun x hx => hnp x (by simp [hx]))]
      simp [List.reverse_cons, List.append_assoc]

theorem split_on_sentences_no_punct {s : List Char}
    (hnp : ∀ c ∈ s, isPunctCh c = false) :
    split_on_sentences s = if stripCh s = [] then [] else [stripCh s] := by
  unfold split_on_sentences
  rw [sos_fuel_no_punct (s.length + 1) [] s (by omega) hnp]
  by_cases hs : stripCh s = [] <;> simp [hs]

theorem make_chunk_content (content num title : List Char) (sub : Option (List Char))
    (hier : List (List Char)) : (make_chunk content num title sub hier).content = content := rfl

theorem dropWs_trim_eq (s : List Char) (h : trim_whitespace s = []) : dropWs s = [] := by
  have := dropWs_trim s
  rw [h] at this
  exact this.symm

/-- The flush-or-skip emission of a buffered piece keeps exactly the
buffer's non-whitespace characters. -/
theorem flush_piece_flatten (maxT : Nat) (num title : List Char) (sub : Option (List Char))
    (hier : List (List Char)) (current : List (List Char)) :
    dropWs (List.flatten (((if trim_whitespace (joinSp current) = [] then ([] : List LegalChunk)
        else [make_chunk (trim_whitespace (joinSp current)) num title sub hier])).map
          (fun ch => ch.content))) = dropWs current.flatten := by
  by_cases hp : trim_whitespace (joinSp current) = []
  · rw [if_pos hp]
    have h2 := dropWs_trim_eq _ hp
    rw [dropWs_joinSp] at h2
    simp only [List.map_nil, List.flatten_nil]
    rw [h2]
    rfl
  · rw [if_neg hp]
    simp only [List.map_cons, List.map_nil, List.flatten_cons, List.flatten_nil,
      make_chunk_content, List.append_nil]
    rw [dropWs_trim, dropWs_joinSp]

/-- Greedy sentence regrouping neither loses nor duplicates non-whitespace
characters. -/
theorem accum_flatten (maxT : Nat) (num title : List Char) (sub : Option (List Char))
    (hier : List (List Char)) :
    ∀ (sents current : List (List Char)) (clen : Nat),
      dropWs (List.flatten ((accum_sentences maxT num title sub hier sents current clen).map
        (fun ch => ch.content))) = dropWs current.flatten ++ dropWs sents.flatten := by
  intro sents
  induction sents with
  | nil =>
    intro current clen
    simp only [accum_sentences]
    by_cases hcur : current = []
    · rw [if_pos hcur, hcur]
      simp [dropWs]
    · rw [if_neg hcur]
      have := flush_piece_flatten maxT num title sub hier current
      simpa [dropWs] using this
  | cons sent rest ih =>
    intro current clen
    simp only [accum_sentences]
    by_cases hs : trim_whitespace sent = []
    · rw [if_pos hs, ih current clen]
      have h2 : dropWs sent = [] := dropWs_trim_eq _ hs
      simp [List.flatten_cons, dropWs_append, h2]
    · rw [if_neg hs]
      split
      next hcond =>
        rw [List.map_append, List.flatten_append, dropWs_append,
          ih [trim_whitespace sent] (estimate_tokens (trim_whitespace sent)),
          flush_piece_flatten maxT num title sub hier current]
        simp [List.flatten_cons, dropWs_append, dropWs_trim]
      next hcond =>
        rw [ih (current ++ [trim_whitespace sent]) (clen + estimate_tokens (trim_whitespace sent))]
        simp [List.flatten_append, List.flatten_cons, dropWs_append, dropWs_trim]

/-- `_chunk_text_body` preserves, chunk for chunk, the non-whitespace
characters of the body it was given; the hard-slice branch is handled by
showing it cannot be reached (the sentence splitter only returns an empty
list on all-whitespace input). -/
theorem chunk_text_body_flatten (minT maxT : Nat) (num title : List Char)
    (sub : Option (List Char)) (hier : List (List Char)) (body : List Char) :
    dropWs (List.flatten ((chunk_text_body minT maxT num title sub hier body).map
      (fun ch => ch.content))) = dropWs body := by
  simp only [chunk_text_body]
  by_cases h0 : trim_whitespace body = []
  · rw [if_pos h0]
    simp only [List.map_nil, List.flatten_nil]
    rw [dropWs_trim_eq _ h0]
    rfl
  · rw [if_neg h0]
    by_cases h1 : estimate_tokens (trim_whitespace body) ≤ maxT
    · rw [if_pos h1]
      simp only [List.map_cons, List.map_nil, List.flatten_cons, List.flatten_nil,
        make_chunk_content, List.append_nil]
      exact dropWs_trim body
    · rw [if_neg h1]
      by_cases h2 : split_on_sentences (trim_whitespace body) = []
      · exfalso
        have h3 : dropWs (trim_whitespace body) = [] := split_on_sentences_eq_nil h2
        rw [dropWs_trim] at h3
        exact h0 (trim_eq_nil_of_dropWs h3)
      · rw [if_neg h2, accum_flatten]
        rw [show List.flatten ([] : List (List Char)) = [] from rfl,
          show dropWs ([] : List Char) = [] from rfl, List.nil_append,
          split_on_sentences_flatten, dropWs_trim]

/-- A unit whose normalized body fits the bound is emitted verbatim as a
single chunk (the `tokens < min_tokens` test in the source is a no-op). -/
theorem chunk_text_body_small (minT maxT : Nat) (num title : List Char)
    (sub : Option (List Char)) (hier : List (List Char)) (body : List Char)
    (h1 : trim_whitespace body ≠ []) (h2 : estimate_tokens (trim_whitespace body) ≤ maxT) :
    chunk_text_body minT maxT num title sub hier body =
      [make_chunk (trim_whitespace body) num title sub hier] := by
  simp only [chunk_text_body]
  rw [if_neg h1, if_pos h2]

theorem chunk_text_body_token_le (minT maxT : Nat) (num title : List Char)
    (sub : Option (List Char)) (hier : List (List Char)) (body : List Char)
    (h2 : estimate_tokens (trim_whitespace body) ≤ maxT) :
    ∀ ch ∈ chunk_text_body minT maxT num title sub hier body, ch.token_count ≤ maxT := by
  intro ch hch
  by_cases h1 : trim_whitespace body = []
  · simp [chunk_text_body, h1] at hch
  · rw [chunk_text_body_small minT maxT num title sub hier body h1 h2] at hch
    simp only [List.mem_singleton] at hch
    subst hch
    simpa [make_chunk] using h2

/-- Every chunk the hard character slice emits is non-empty and at most
`max_chars` characters long (trimming only shortens a slice). -/
theorem hard_split_fuel_bounds (maxChars : Nat) (num title : List Char)
    (sub : Option (List Char)) (hier : List (List Char)) :
    ∀ (fuel : Nat) (t : List Char),
      ∀ ch ∈ hard_split_fuel maxChars num title sub hier fuel t,
        ch.content ≠ [] ∧ ch.content.length ≤ maxChars := by
  intro fuel
  induction fuel with
  | zero => intro t ch hch; simp [hard_split_fuel] at hch
  | succ fuel ih =>
    intro t ch hch
    cases t with
    | nil => simp [hard_split_fuel] at hch
    | cons c rest =>
      simp only [hard_split_fuel] at hch
      rw [List.mem_append] at hch
      cases hch with
      | inl h1 =>
        by_cases hp : trim_whitespace ((c :: rest).take maxChars) = []
        · rw [if_pos hp] at h1
          simp at h1
        · rw [if_neg hp] at h1
          simp only [List.mem_singleton] at h1
          subst h1
          rw [make_chunk_content]
          refine ⟨hp, ?_⟩
          refine le_trans (trim_length_le _) ?_
          rw [List.length_take]
          exact Nat.min_le_left _ _
      | inr h2 => exact ih _ ch h2

theorem hard_split_bounds (maxT : Nat) (text num title : List Char)
    (sub : Option (List Char)) (hier : List (List Char)) :
    ∀ ch ∈ hard_split maxT text num title sub hier,
      ch.content ≠ [] ∧ ch.content.length ≤ maxT * 4 :=
  hard_split_fuel_bounds (maxT * 4) num title sub hier (text.length + 1) text

/-- A non-empty body with no whitespace and no sentence punctuation whose
estimate exceeds the bound is emitted as one single chunk holding the whole
body: the degenerate hard-slice branch is not taken, because the splitter
returns the whole text as its one piece. -/
theorem chunk_text_body_no_punct_single (minT maxT : Nat) (num title : List Char)
    (sub : Option (List Char)) (hier : List (List Char)) (body : List Char)
    (hb : body ≠ []) (hnp : ∀ c ∈ body, isPunctCh c = false)
    (hns : ∀ c ∈ body, isSpaceCh c = false)
    (hbig : ¬ (estimate_tokens body ≤ maxT)) :
    chunk_text_body minT maxT num title sub hier body =
      [make_chunk body num title sub hier] := by
  have htrim : trim_whitespace body = body := trim_of_no_space hns
  have hsplit : split_on_sentences body = [body] := by
    rw [split_on_sentences_no_punct hnp, strip_of_no_space hns, if_neg hb]
  simp only [chunk_text_body, htrim]
  rw [if_neg hb, if_neg hbig, hsplit]
  rw [if_neg (by simp : ¬([body] : List (List Char)) = [])]
  simp [accum_sentences, htrim, joinSp, hb]

theorem ctb_min_zero (m M : Nat) (n t : List Char) (s : Option (List Char))
    (h : List (List Char)) (b : List Char) :
    chunk_text_body m M n t s h b = chunk_text_body 0 M n t s h b := rfl

theorem emit_one_min_zero (m M : Nat) (n t : List Char) (h : List (List Char))
    (st : List Char) : emit_one m M n t h st = emit_one 0 M n t h st := by
  simp only [emit_one, ctb_min_zero]

theorem emit_sections_min_zero (m M : Nat) :
    ∀ (secs : List (List Char × List Char × List (List Char)))
      (sh : List (List (List Char))),
      emit_sections m M secs sh = emit_sections 0 M secs sh := by
  intro secs
  induction secs with
  | nil => intro sh; rfl
  | cons sec rest ih =>
    intro sh
    simp only [emit_sections, emit_one_min_zero, ih]

theorem parse_document_min_zero (m M : Nat) (text : List Char) :
    parse_document m M text = parse_document 0 M text := by
  simp only [parse_document, emit_sections_min_zero]

theorem digitCh_val {n : Nat} (h : n < 10) : (digitCh n).toNat - 48 = n := by
  interval_cases n <;> decide

theorem read_natDigitsRevFuel : ∀ (fuel n : Nat), n < fuel →
    readDigitsRev (natDigitsRevFuel fuel n) = n := by
  intro fuel
  induction fuel with
  | zero => intro n h; exact absurd h (Nat.not_lt_zero _)
  | succ fuel ih =>
    intro n h
    simp only [natDigitsRevFuel]
    by_cases h10 : n < 10
    · rw [if_pos h10]
      simp [readDigitsRev, digitCh_val h10]
    · rw [if_neg h10]
      have hd : n / 10 < fuel := by
        have h1 : n / 10 < n := Nat.div_lt_self (by omega) (by omega)
        omega
      simp only [readDigitsRev, ih (n / 10) hd, digitCh_val (Nat.mod_lt n (by omega))]
      omega

theorem natRepr_injective {m n : Nat} (h : natRepr m = natRepr n) : m = n := by
  have hm := read_natDigitsRevFuel (m + 1) m (by omega)
  have hn := read_natDigitsRevFuel (n + 1) n (by omega)
  unfold natRepr at h
  have h2 := List.reverse_injective h
  rw [← hm, ← hn, h2]

theorem digitCh_ne_hash (k : Nat) : digitCh k ≠ '#' := by
  rcases k with _ | _ | _ | _ | _ | _ | _ | _ | _ | k <;>
    first
    | decide
    | exact (by decide : ('9' : Char) ≠ '#')

theorem natDigitsRevFuel_ne_hash : ∀ (fuel n : Nat), ∀ c ∈ natDigitsRevFuel fuel n, c ≠ '#' := by
  intro fuel
  induction fuel with
  | zero => intro n c hc; simp [natDigitsRevFuel] at hc
  | succ fuel ih =>
    intro n c hc
    simp only [natDigitsRevFuel] at hc
    by_cases h10 : n < 10
    · rw [if_pos h10] at hc
      simp only [List.mem_singleton] at hc
      subst hc
      exact digitCh_ne_hash n
    · rw [if_neg h10] at hc
      simp only [List.mem_cons] at hc
      rcases hc with hc | hc
      · subst hc; exact digitCh_ne_hash _
      · exact ih _ c hc

theorem natRepr_ne_hash (n : Nat) : ∀ c ∈ natRepr n, c ≠ '#' := by
  intro c hc
  rw [natRepr, List.mem_reverse] at hc
  exact natDigitsRevFuel_ne_hash _ n c hc

theorem append_hash_inj : ∀ {a a' r r' : List Char}, '#' ∉ a → '#' ∉ a' →
    a ++ '#' :: r = a' ++ '#' :: r' → a = a' ∧ r = r' := by
  intro a
  induction a with
  | nil =>
    intro a' r r' _ ha' h
    cases a' with
    | nil => simpa using h
    | cons y u =>
      simp only [List.nil_append, List.cons_append, List.cons.injEq] at h
      exact absurd (h.1 ▸ List.mem_cons_self y u) ha'
  | cons x t ih =>
    intro a' r r' ha ha' h
    cases a' with
    | nil =>
      simp only [List.cons_append, List.nil_append, List.cons.injEq] at h
      exact absurd (h.1 ▸ List.mem_cons_self x t) ha
    | cons y u =>
      simp only [List.cons_append, List.cons.injEq] at h
      obtain ⟨hxy, h2⟩ := h
      have ht : '#' ∉ t := fun hm => ha (List.mem_cons_of_mem _ hm)
      have hu : '#' ∉ u := fun hm => ha' (List.mem_cons_of_mem _ hm)
      obtain ⟨e1, e2⟩ := ih ht hu h2
      exact ⟨by rw [hxy, e1], e2⟩

theorem encodeId_inj {b b' : List Char} {k k' : Nat} (hb : '#' ∉ b) (hb' : '#' ∉ b')
    (h : encodeId b k = encodeId b' k') : b = b' ∧ k = k' := by
  unfold encodeId at h
  by_cases hk : k = 0 <;> by_cases hk' : k' = 0
  · subst hk; subst hk'
    rw [if_pos rfl, if_pos rfl] at h
    exact ⟨h, rfl⟩
  · subst hk
    rw [if_pos rfl, if_neg hk'] at h
    exact absurd (h ▸ (List.mem_append.mpr (Or.inr (List.mem_cons_self _ _)))) hb
  · subst hk'
    rw [if_neg hk, if_pos rfl] at h
    exact absurd (h ▸ (List.mem_append.mpr (Or.inr (List.mem_cons_self _ _)))) hb'
  · rw [if_neg hk, if_neg hk'] at h
    obtain ⟨h1, h2⟩ := append_hash_inj hb hb' h
    exact ⟨h1, natRepr_injective h2⟩

theorem dictGet_set_self (d : List (List Char × Nat)) (k : List Char) (v : Nat) :
    dictGet (dictSet d k v) k = v := by
  simp [dictGet, dictSet, List.find?_cons_of_pos]

theorem find_filter_ne {k k' : List Char} (h : k' ≠ k) :
    ∀ d : List (List Char × Nat),
      List.find? (fun p => p.1 == k') (d.filter (fun p => p.1 != k)) =
        List.find? (fun p => p.1 == k') d := by
  intro d
  induction d with
  | nil => rfl
  | cons p t ih =>
    simp only [List.filter_cons]
    by_cases hk : (p.1 != k) = true
    · rw [if_pos hk]
      by_cases hp : (p.1 == k') = true
      · rw [@List.find?_cons_of_pos _ (fun q => q.1 == k') p
            (t.filter fun q => q.1 != k) hp,
          @List.find?_cons_of_pos _ (fun q => q.1 == k') p t hp]
      · rw [@List.find?_cons_of_neg _ (fun q => q.1 == k') p
            (t.filter fun q => q.1 != k) hp,
          @List.find?_cons_of_neg _ (fun q => q.1 == k') p t hp, ih]
    · rw [if_neg hk, ih]
      have hpk : p.1 = k := by
        simp only [bne, Bool.not_eq_true, Bool.not_eq_false'] at hk
        simpa using hk
      have hp : ¬(p.1 == k') = true := by
        simp only [beq_iff_eq, hpk]
        exact fun e => h e.symm
      rw [@List.find?_cons_of_neg _ (fun q => q.1 == k') p t hp]

theorem dictGet_set_ne (d : List (List Char × Nat)) (k k' : List Char) (v : Nat)
    (h : k' ≠ k) : dictGet (dictSet d k v) k' = dictGet d k' := by
  simp only [dictGet, dictSet]
  rw [@List.find?_cons_of_neg _ (fun p => p.1 == k') (k, v) (d.filter fun p => p.1 != k)
      (by simp only [beq_iff_eq]; exact fun e => h e.symm),
    find_filter_ne h d]

theorem dictGet_le_set_succ (counts : List (List Char × Nat)) (base b : List Char) :
    dictGet counts b ≤ dictGet (dictSet counts base (dictGet counts base + 1)) b := by
  by_cases hb : b = base
  · subst hb
    rw [dictGet_set_self]
    omega
  · rw [dictGet_set_ne _ _ _ _ hb]

theorem prepare_aux_ids_ge :
    ∀ (chunks : List LegalChunk) (counts : List (List Char × Nat)),
      (∀ ch ∈ chunks, '#' ∉ chunkBase ch) →
      ∀ uid ∈ (prepare_aux counts chunks).2.2,
        ∃ b k, '#' ∉ b ∧ uid = encodeId b k ∧ dictGet counts b ≤ k := by
  intro chunks
  induction chunks with
  | nil => intro counts h uid hu; simp [prepare_aux] at hu
  | cons ch rest ih =>
    intro counts h uid hu
    simp only [prepare_aux, List.mem_cons] at hu
    rcases hu with hu | hu
    · refine ⟨chunkBase ch, dictGet counts (chunkBase ch), h ch (by simp), ?_, le_refl _⟩
      rw [hu]
      rfl
    · obtain ⟨b, k, hb, he, hge⟩ :=
        ih (dictSet counts (chunkBase ch) (dictGet counts (chunkBase ch) + 1))
          (fun x hx => h x (by simp [hx])) uid hu
      exact ⟨b, k, hb, he, le_trans (dictGet_le_set_succ counts (chunkBase ch) b) hge⟩

theorem prepare_aux_ids_nodup :
    ∀ (chunks : List LegalChunk) (counts : List (List Char × Nat)),
      (∀ ch ∈ chunks, '#' ∉ chunkBase ch) →
      ((prepare_aux counts chunks).2.2).Pairwise (fun a b => a ≠ b) := by
  intro chunks
  induction chunks with
  | nil => intro counts h; simp [prepare_aux]
  | cons ch rest ih =>
    intro counts h
    simp only [prepare_aux]
    refine List.Pairwise.cons ?_ (ih _ (fun x hx => h x (by simp [hx])))
    intro uid hu heq
    obtain ⟨b, k, hb, he, hge⟩ :=
      prepare_aux_ids_ge rest (dictSet counts (chunkBase ch) (dictGet counts (chunkBase ch) + 1))
        (fun x hx => h x (by simp [hx])) uid hu
    have hbase : '#' ∉ chunkBase ch := h ch (by simp)
    have hhead : (if dictGet counts (chunkBase ch) = 0 then chunkBase ch
        else chunkBase ch ++ '#' :: natRepr (dictGet counts (chunkBase ch))) =
        encodeId (chunkBase ch) (dictGet counts (chunkBase ch)) := rfl
    rw [hhead, he] at heq
    obtain ⟨e1, e2⟩ := encodeId_inj hbase hb heq
    rw [← e1, dictGet_set_self] at hge
    omega

theorem hash_not_mem_digits (s : List Char) : '#' ∉ s.takeWhile isDigitCh := by
  intro hm
  exact digit_ne_hash (List.mem_takeWhile_imp hm) rfl

theorem dashNumTail_no_hash {r : List Char} {p : List Char × List Char}
    (h : dashNumTail r = some p) : '#' ∉ p.1 := by
  unfold dashNumTail at h
  match r with
  | [] => simp at h
  | c :: r1 =>
    simp only at h
    split at h
    · split at h
      · simp at h
      · simp only [Option.some.injEq] at h
        rw [← h]
        exact hash_not_mem_digits r1
    · simp at h

theorem sectionExt_no_hash (r3 : List Char) : '#' ∉ (sectionExt r3).1 := by
  unfold sectionExt
  match r3 with
  | [] => simp
  | c :: r3' =>
    simp only
    split
    · split
      · simp
      · intro hm
        simp only [List.mem_cons] at hm
        rcases hm with hm | hm
        · simp at hm
        · exact hash_not_mem_digits r3' hm
    · simp

theorem section_start_num_no_hash {line num title : List Char}
    (h : section_start_match line = some (num, title)) : '#' ∉ num := by
  unfold section_start_match at h
  simp only at h
  split at h
  · simp at h
  · split at h
    · simp at h
    case _ p2 hp2 =>
      split at h
      · simp at h
      case _ p3 hp3 =>
        simp only [Option.some.injEq, Prod.mk.injEq] at h
        rw [← h.1]
        intro hm
        simp only [List.mem_append, List.mem_cons] at hm
        rcases hm with ((hm | hm | hm) | hm | hm) | hm
        · exact hash_not_mem_digits line hm
        · simp at hm
        · exact dashNumTail_no_hash hp2 hm
        · simp at hm
        · exact dashNumTail_no_hash hp3 hm
        · exact sectionExt_no_hash p3.2 hm

theorem strip_subset {c : Char} {s : List Char} (h : c ∈ stripCh s) : c ∈ s := by
  unfold stripCh rstripCh lstripCh at h
  rw [List.mem_reverse] at h
  have h1 := (List.dropWhile_sublist isSpaceCh).mem h
  rw [List.mem_reverse] at h1
  exact (List.dropWhile_sublist isSpaceCh).mem h1

theorem flush_section_no_hash {st : ScanState} (h : scanNoHash st) :
    scanNoHash (flush_section st) := by
  obtain ⟨h1, h2⟩ := h
  unfold flush_section
  split
  next n hb =>
    split
    · constructor
      · intro sec hsec
        rw [List.mem_append] at hsec
        rcases hsec with hs | hs
        · exact h1 sec hs
        · simp only [List.mem_singleton] at hs
          rw [hs]
          exact h2 n hb
      · intro n' hn'
        simp at hn'
    · exact ⟨h1, by intro n' hn'; simp at hn'⟩
  next hb => exact ⟨h1, by intro n' hn'; simp at hn'⟩

theorem scan_line_no_hash {st : ScanState} (h : scanNoHash st) (line : List Char) :
    scanNoHash (scan_line st line) := by
  unfold scan_line
  simp only
  split
  · exact h
  · split
    · exact flush_section_no_hash h
    · split
      · exact flush_section_no_hash h
      · split
        · exact flush_section_no_hash h
        · split
          next nt hnt =>
            have hf := flush_section_no_hash h
            refine ⟨hf.1, ?_⟩
            intro n hn
            simp only [Option.some.injEq] at hn
            rw [← hn]
            intro hm
            exact @section_start_num_no_hash (rstripCh line) nt.1 nt.2
              (by rw [hnt, Prod.mk.eta]) (strip_subset hm)
          next hnt =>
            split
            · exact ⟨h.1, h.2⟩
            · exact h

theorem foldl_scan_no_hash (lines : List (List Char)) :
    ∀ st : ScanState, scanNoHash st → scanNoHash (lines.foldl scan_line st) := by
  induction lines with
  | nil => intro st h; exact h
  | cons l t ih =>
    intro st h
    exact ih _ (scan_line_no_hash h l)

theorem run_scan_no_hash (lines : List (List Char)) :
    ∀ sec ∈ (run_scan lines).sections, '#' ∉ sec.1 :=
  (flush_section_no_hash (foldl_scan_no_hash lines ⟨[], none, [], []⟩
    ⟨by simp, by simp⟩)).1

theorem subsec_inner_no_hash {rest inner : List Char}
    (h : subsec_inner rest = some inner) : '#' ∉ inner := by
  unfold subsec_inner at h
  simp only at h
  split at h
  · simp only [Option.some.injEq] at h
    rw [← h]
    exact hash_not_mem_digits rest
  · split at h
    next hlet =>
      simp only [Option.some.injEq] at h
      rw [← h]
      match rest, hlet with
      | a :: b :: t, hlet =>
        rw [Bool.and_eq_true] at hlet
        intro hm
        simp only [List.headD_cons, List.mem_singleton] at hm
        exact alpha_ne_hash hlet.1 hm.symm
    next =>
      split at h
      · simp only [Option.some.injEq] at h
        rw [← h]
        intro hm
        exact ivx_ne_hash (List.mem_takeWhile_imp hm) rfl
      · simp at h

theorem subsec_match_at_no_hash {s mark : List Char}
    (h : subsec_match_at s = some mark) : '#' ∉ mark := by
  unfold subsec_match_at at h
  match s with
  | [] => simp at h
  | c :: rest =>
    simp only at h
    split at h
    · rcases Option.map_eq_some'.mp h with ⟨inner, hin, rfl⟩
      intro hm
      simp only [List.mem_cons] at hm
      rcases hm with hm | hm
      · simp at hm
      · rcases List.mem_append.mp hm with hm | hm
        · exact subsec_inner_no_hash hin hm
        · simp at hm
    · simp at h

theorem finditer_fuel_no_hash :
    ∀ (fuel pos : Nat) (s : List Char),
      ∀ pm ∈ finditer_subsec_fuel fuel pos s, '#' ∉ pm.2 := by
  intro fuel
  induction fuel with
  | zero => intro pos s pm hpm; simp [finditer_subsec_fuel] at hpm
  | succ fuel ih =>
    intro pos s pm hpm
    cases s with
    | nil => simp [finditer_subsec_fuel] at hpm
    | cons c rest =>
      simp only [finditer_subsec_fuel] at hpm
      split at hpm
      next mark hmark =>
        simp only [List.mem_cons] at hpm
        rcases hpm with hpm | hpm
        · rw [hpm]
          exact subsec_match_at_no_hash hmark
        · exact ih _ _ pm hpm
      next => exact ih _ _ pm hpm

theorem subsec_pieces_no_hash (text : List Char) :
    ∀ (ms : List (Nat × List Char)), (∀ pm ∈ ms, '#' ∉ pm.2) →
      ∀ pr ∈ subsec_pieces text ms, '#' ∉ pr.1 := by
  intro ms
  induction ms with
  | nil => intro h pr hpr; simp [subsec_pieces] at hpr
  | cons pm t ih =>
    obtain ⟨pos, mark⟩ := pm
    intro h pr hpr
    simp only [subsec_pieces, List.mem_cons] at hpr
    rcases hpr with hpr | hpr
    · rw [hpr]
      exact h (pos, mark) (by simp)
    · exact ih (fun x hx => h x (by simp [hx])) pr hpr

theorem split_by_subsections_no_hash (text : List Char) :
    ∀ pr ∈ split_by_subsections text, '#' ∉ pr.1 := by
  intro pr hpr
  unfold split_by_subsections at hpr
  simp only at hpr
  split at hpr
  · simp at hpr
  · exact subsec_pieces_no_hash text _
      (fun pm hpm => finditer_fuel_no_hash _ _ _ pm hpm) pr hpr

/-- Every chunk built by the bound-enforcement step carries the section
number and subsection marker it was called with. -/
theorem accum_fields (maxT : Nat) (num title : List Char) (sub : Option (List Char))
    (hier : List (List Char)) :
    ∀ (sents current : List (List Char)) (clen : Nat),
      ∀ ch ∈ accum_sentences maxT num title sub hier sents current clen,
        ch.section_number = num ∧ ch.subsection = sub := by
  intro sents
  induction sents with
  | nil =>
    intro current clen ch hch
    simp only [accum_sentences] at hch
    split at hch
    · simp at hch
    · split at hch
      · simp at hch
      · simp only [List.mem_singleton] at hch
        rw [hch]
        exact ⟨rfl, rfl⟩
  | cons sent rest ih =>
    intro current clen ch hch
    simp only [accum_sentences] at hch
    split at hch
    · exact ih _ _ ch hch
    · split at hch
      · rw [List.mem_append] at hch
        rcases hch with hch | hch
        · split at hch
          · simp at hch
          · simp only [List.mem_singleton] at hch
            rw [hch]
            exact ⟨rfl, rfl⟩
        · exact ih _ _ ch hch
      · exact ih _ _ ch hch

theorem hard_split_fuel_fields (maxChars : Nat) (num title : List Char)
    (sub : Option (List Char)) (hier : List (List Char)) :
    ∀ (fuel : Nat) (t : List Char),
      ∀ ch ∈ hard_split_fuel maxChars num title sub hier fuel t,
        ch.section_number = num ∧ ch.subsection = sub := by
  intro fuel
  induction fuel with
  | zero => intro t ch hch; simp [hard_split_fuel] at hch
  | succ fuel ih =>
    intro t ch hch
    cases t with
    | nil => simp [hard_split_fuel] at hch
    | cons c rest =>
      simp only [hard_split_fuel] at hch
      rw [List.mem_append] at hch
      rcases hch with hch | hch
      · split at hch
        · simp at hch
        · simp only [List.mem_singleton] at hch
          rw [hch]
          exact ⟨rfl, rfl⟩
      · exact ih _ ch hch

theorem chunk_text_body_fields (minT maxT : Nat) (num title : List Char)
    (sub : Option (List Char)) (hier : List (List Char)) (body : List Char) :
    ∀ ch ∈ chunk_text_body minT maxT num title sub hier body,
      ch.section_number = num ∧ ch.subsection = sub := by
  intro ch hch
  simp only [chunk_text_body] at hch
  split at hch
  · simp at hch
  · split at hch
    · simp only [List.mem_singleton] at hch
      rw [hch]
      exact ⟨rfl, rfl⟩
    · split at hch
      · exact hard_split_fuel_fields _ _ _ _ _ _ _ ch hch
      · exact accum_fields _ _ _ _ _ _ _ _ ch hch

theorem chunkBase_no_hash {ch : LegalChunk} (hn : '#' ∉ ch.section_number)
    (hs : ∀ s, ch.subsection = some s → '#' ∉ s) : '#' ∉ chunkBase ch := by
  unfold chunkBase
  cases hsub : ch.subsection with
  | none => exact hn
  | some sub =>
    simp only
    split
    · exact hn
    · intro hm
      rcases List.mem_append.mp hm with hm | hm
      · exact hn hm
      · simp only [List.mem_cons] at hm
        rcases hm with hm | hm
        · simp at hm
        · exact hs sub hsub hm

theorem emit_one_base_no_hash (minT maxT : Nat) (num title : List Char)
    (hier : List (List Char)) (stx : List Char) (hnum : '#' ∉ num) :
    ∀ ch ∈ emit_one minT maxT num title hier stx, '#' ∉ chunkBase ch := by
  intro ch hch
  simp only [emit_one] at hch
  split at hch
  · obtain ⟨he1, he2⟩ := chunk_text_body_fields minT maxT num title none hier stx ch hch
    refine chunkBase_no_hash (by rw [he1]; exact hnum) ?_
    intro s hs
    rw [he2] at hs
    simp at hs
  · rw [List.mem_flatMap] at hch
    obtain ⟨p, hp, hch⟩ := hch
    have hmark : '#' ∉ p.1 := split_by_subsections_no_hash stx p hp
    split at hch
    · split at hch
      · obtain ⟨he1, he2⟩ :=
          chunk_text_body_fields minT maxT num title (some p.1) hier p.2 ch hch
        refine chunkBase_no_hash (by rw [he1]; exact hnum) ?_
        intro s hs
        rw [he2] at hs
        simp only [Option.some.injEq] at hs
        rw [← hs]
        exact hmark
      · rw [List.mem_flatMap] at hch
        obtain ⟨q, hq, hch⟩ := hch
        have hmark2 : '#' ∉ q.1 := split_by_subsections_no_hash p.2 q hq
        obtain ⟨he1, he2⟩ :=
          chunk_text_body_fields minT maxT num title (some (p.1 ++ q.1)) hier q.2 ch hch
        refine chunkBase_no_hash (by rw [he1]; exact hnum) ?_
        intro s hs
        rw [he2] at hs
        simp only [Option.some.injEq] at hs
        rw [← hs]
        intro hm
        rcases List.mem_append.mp hm with hm | hm
        · exact hmark hm
        · exact hmark2 hm
    · obtain ⟨he1, he2⟩ :=
        chunk_text_body_fields minT maxT num title (some p.1) hier p.2 ch hch
      refine chunkBase_no_hash (by rw [he1]; exact hnum) ?_
      intro s hs
      rw [he2] at hs
      simp only [Option.some.injEq] at hs
      rw [← hs]
      exact hmark

theorem emit_sections_base_no_hash (minT maxT : Nat) :
    ∀ (secs : List (List Char × List Char × List (List Char)))
      (sh : List (List (List Char))),
      (∀ sec ∈ secs, '#' ∉ sec.1) →
      ∀ ch ∈ emit_sections minT maxT secs sh, '#' ∉ chunkBase ch := by
  intro secs
  induction secs with
  | nil => intro sh h ch hch; simp [emit_sections] at hch
  | cons sec rest ih =>
    intro sh h ch hch
    simp only [emit_sections] at hch
    rw [List.mem_append] at hch
    rcases hch with hch | hch
    · split at hch
      · simp at hch
      · exact emit_one_base_no_hash _ _ _ _ _ _ (h sec (by simp)) ch hch
    · exact ih _ (fun x hx => h x (by simp [hx])) ch hch

theorem parse_document_base_no_hash (minT maxT : Nat) (text : List Char) :
    ∀ ch ∈ parse_document minT maxT text, '#' ∉ chunkBase ch := by
  intro ch hch
  unfold parse_document at hch
  exact emit_sections_base_no_hash minT maxT _ _ (run_scan_no_hash _) ch hch

/-- C1 (counterexample): with the valid bounds `(1, 2)` the document
`"1-1-1. T\nabcdefghijkl"` yields a chunk whose token estimate is 3 > 2:
an oversized unit with no sentence break is emitted whole by the
sentence-regrouping path, violating the universal bound invariant. -/
theorem C1_counterexample :
    (0 < 1 ∧ 1 < 2) ∧
      ¬ (∀ ch ∈ parse_document 1 2 (cs "1-1-1. T\nabcdefghijkl"),
          estimate_tokens ch.content ≤ 2) := by
  constructor
  · exact ⟨by decide, by decide⟩
  · decide

/-- C1 (amended): the bound invariant holds for every chunk that comes from
a unit whose whitespace-normalized body already fits `max_tokens` (the
direct-emission branch); the sentence-regrouping path for oversized units
can exceed the bound. -/
theorem C1_amended :
    ∀ (minT maxT : Nat) (num title : List Char) (sub : Option (List Char))
      (hier : List (List Char)) (body : List Char),
      estimate_tokens (trim_whitespace body) ≤ maxT →
      ∀ ch ∈ chunk_text_body minT maxT num title sub hier body,
        ch.token_count ≤ maxT ∧ estimate_tokens ch.content ≤ maxT := by
  intro minT maxT num title sub hier body h2 ch hch
  by_cases h1 : trim_whitespace body = []
  · simp [chunk_text_body, h1] at hch
  · rw [chunk_text_body_small minT maxT num title sub hier body h1 h2] at hch
    simp only [List.mem_singleton] at hch
    subst hch
    exact ⟨h2, h2⟩

/-- C1 (witness): the amended theorem applied to a concrete small body. -/
theorem C1_witness :
    estimate_tokens (trim_whitespace (cs "hello world")) ≤ 800 ∧
      (make_chunk (trim_whitespace (cs "hello world")) (cs "1-1-1") (cs "T") none [] ∈
        chunk_text_body 50 800 (cs "1-1-1") (cs "T") none [] (cs "hello world")) ∧
      ((make_chunk (trim_whitespace (cs "hello world")) (cs "1-1-1") (cs "T") none []).token_count ≤ 800 ∧
        estimate_tokens (make_chunk (trim_whitespace (cs "hello world")) (cs "1-1-1") (cs "T")
          none []).content ≤ 800) :=
  ⟨by decide, by decide,
    C1_amended 50 800 (cs "1-1-1") (cs "T") none [] (cs "hello world") (by decide)
      (make_chunk (trim_whitespace (cs "hello world")) (cs "1-1-1") (cs "T") none [])
      (by decide)⟩

/-- C2 (counterexample): for a section whose single content line is
`"pre (1) aa (2) bb"`, the concatenated chunk bodies (`"aa"`, `"bb"`) do not
reproduce the section's characters even ignoring whitespace: the text before
the first subsection marker and the markers themselves are dropped. -/
theorem C2_counterexample :
    dropWs (List.flatten ((parse_document 50 800
        (cs "1-1-1. T\npre (1) aa (2) bb")).map (fun ch => ch.content))) ≠
      dropWs (cs "pre (1) aa (2) bb") := by
  decide

/-- C2 (amended): per subsection unit, concatenating the bodies of the
chunks `_chunk_text_body` emits reproduces, ignoring whitespace, exactly
the unit's body; at section level the markers and any text before the first
marker are moved out of the bodies, so the per-section statement fails. -/
theorem C2_amended :
    ∀ (minT maxT : Nat) (num title : List Char) (sub : Option (List Char))
      (hier : List (List Char)) (body : List Char),
      dropWs (List.flatten ((chunk_text_body minT maxT num title sub hier body).map
        (fun ch => ch.content))) = dropWs body :=
  fun minT maxT num title sub hier body =>
    chunk_text_body_flatten minT maxT num title sub hier body

/-- C3 (code evaluation): in the document

    TITLE 1 / 1-1-1 (content) / TITLE 2 / 1-1-2 (no content) / TITLE 3 /
    1-1-3 (content)

section `1-1-2` is discarded (no content lines), but its pass-two snapshot
is still counted; the trailing snapshot list is truncated, so section
`1-1-3`, which opened under TITLE 3, is emitted carrying `["TITLE 2"]`. -/
theorem C3_code_eval :
    (parse_document 50 800
        (cs "TITLE 1\n1-1-1. A.\naaa\nTITLE 2\n1-1-2. B.\nTITLE 3\n1-1-3. C.\nccc")).map
        (fun ch => (ch.section_number, ch.hierarchy)) =
      [(cs "1-1-1", [cs "TITLE 1"]), (cs "1-1-3", [cs "TITLE 2"])] := by
  decide

/-- C4 (counterexample): a body of 8000 `'a'`s (estimate 2000 tokens, no
sentence punctuation) with `max_tokens = 500` is NOT hard-sliced into
2000-character pieces: the sentence splitter returns the whole body as its
single piece, so one single 8000-character chunk is emitted. -/
theorem C4_counterexample :
    (chunk_text_body 50 500 (cs "1-1-1") (cs "T") none []
        (List.replicate 8000 'a')).map (fun ch => ch.content.length) = [8000] ∧
      estimate_tokens (List.replicate 8000 'a') = 2000 ∧ ¬ (8000 ≤ 2000) := by
  have hmem : ∀ c ∈ List.replicate 8000 'a', c = 'a' :=
    fun c hc => List.eq_of_mem_replicate hc
  have hb : (List.replicate 8000 'a') ≠ [] := by
    intro he
    have hlen := congrArg List.length he
    rw [List.length_replicate] at hlen
    simp at hlen
  have hest : estimate_tokens (List.replicate 8000 'a') = 2000 := by
    simp only [estimate_tokens, List.length_replicate]
    decide
  refine ⟨?_, hest, by decide⟩
  rw [chunk_text_body_no_punct_single 50 500 (cs "1-1-1") (cs "T") none []
      (List.replicate 8000 'a') hb
      (fun c hc => by rw [hmem c hc]; decide)
      (fun c hc => by rw [hmem c hc]; decide)
      (by rw [hest]; decide)]
  simp only [List.map_cons, List.map_nil, make_chunk_content, List.length_replicate]

/-- C4 (amended): the hard character slice, where it to run, emits only
non-empty chunks of at most `max_tokens × 4` characters (trimming can make
a piece shorter than the exact slice width); but the branch is dead — a
punctuation-free body is returned whole by the splitter, as the
counterexample shows. -/
theorem C4_amended :
    ∀ (maxT : Nat) (text num title : List Char) (sub : Option (List Char))
      (hier : List (List Char)),
      ∀ ch ∈ hard_split maxT text num title sub hier,
        ch.content ≠ [] ∧ ch.content.length ≤ maxT * 4 :=
  fun maxT text num title sub hier => hard_split_bounds maxT text num title sub hier

/-- C4 (witness): the amended theorem applied to a concrete hard slice. -/
theorem C4_witness :
    (make_chunk (cs "aaaaaaaa") (cs "1-1-1") (cs "T") none [] ∈
        hard_split 2 (cs "aaaaaaaaaa") (cs "1-1-1") (cs "T") none []) ∧
      ((make_chunk (cs "aaaaaaaa") (cs "1-1-1") (cs "T") none []).content ≠ [] ∧
        (make_chunk (cs "aaaaaaaa") (cs "1-1-1") (cs "T") none []).content.length ≤ 2 * 4) :=
  ⟨by decide,
    C4_amended 2 (cs "aaaaaaaaaa") (cs "1-1-1") (cs "T") none []
      (make_chunk (cs "aaaaaaaa") (cs "1-1-1") (cs "T") none []) (by decide)⟩

/-- C5 (code evaluation): the scenario input — a TITLE/ARTICLE/PART header
block followed by the single-line section — produces ZERO chunks, not two:
the entire text after `17-1-101.` is captured into the section *title*, the
section accumulates no content lines, and `flush_section` discards it. -/
theorem C5_code_eval :
    parse_document 50 800
      (cs "TITLE 17\nARTICLE 1\nPART 1\n17-1-101. Executive director. (1) The governor shall appoint a director. (2) There is created a division.") =
      [] := by
  decide

/-- C6: within one `prepare_for_chromadb` call on any `parse_document`
output the returned identifiers are pairwise distinct (section numbers and
subsection markers can never contain `#`, so the `#n` suffixing cannot
collide with a base identifier); and in the concrete two-section batch both
yielding base `17-1-101`, the second identifier is `17-1-101#1`. -/
theorem C6_ids_unique :
    (∀ (minT maxT : Nat) (text : List Char),
      ((prepare_for_chromadb (parse_document minT maxT text)).2.2).Pairwise
        (fun a b => a ≠ b)) ∧
    (prepare_for_chromadb (parse_document 50 800
        (cs "17-1-101. First.\nalpha beta gamma\n17-1-101. Second.\nalpha beta gamma"))).2.2 =
      [cs "17-1-101", cs "17-1-101#1"] := by
  constructor
  · intro minT maxT text
    exact prepare_aux_ids_nodup (parse_document minT maxT text) []
      (parse_document_base_no_hash minT maxT text)
  · decide

/-- C7: constructing the chunker fails exactly on invalid bounds
(`min_tokens ≤ 0`, `max_tokens ≤ 0`, or `min_tokens ≥ max_tokens`) and
succeeds exactly on `0 < min_tokens < max_tokens`; the check involves no
document.  In particular `(100, 50)` is rejected. -/
theorem C7_init_validation :
    (∀ min_tokens max_tokens : Int,
      (LegalChunker.init min_tokens max_tokens =
          Except.error (cs "Invalid token bounds for chunker") ↔
        (min_tokens ≤ 0 ∨ max_tokens ≤ 0 ∨ min_tokens ≥ max_tokens)) ∧
      (LegalChunker.init min_tokens max_tokens = Except.ok (min_tokens, max_tokens) ↔
        (0 < min_tokens ∧ min_tokens < max_tokens))) ∧
    LegalChunker.init 100 50 = Except.error (cs "Invalid token bounds for chunker") := by
  constructor
  · intro m M
    by_cases hc : m ≤ 0 ∨ M ≤ 0 ∨ m ≥ M
    · rw [LegalChunker.init, if_pos hc]
      refine ⟨⟨fun _ => hc, fun _ => rfl⟩, ⟨fun h => absurd h (by simp), fun h => ?_⟩⟩
      rcases hc with hc | hc | hc <;> [omega; omega; omega]
    · rw [LegalChunker.init, if_neg hc]
      push_neg at hc
      refine ⟨⟨fun h => absurd h (by simp), fun h => absurd h ?_⟩,
        ⟨fun _ => ⟨hc.1, hc.2.2⟩, fun _ => rfl⟩⟩
      intro hd
      rcases hd with hd | hd | hd
      · exact absurd hd (by omega)
      · exact absurd hd (by omega)
      · exact absurd hd (by omega)
  · rfl

/-- C8: `parse_document` is deterministic — two runs with equal bounds on
the same text produce identical chunk sequences (the embedding is a pure
function of the text and the bounds; the source touches no other state). -/
theorem C8_deterministic :
    ∀ (m M m' M' : Nat) (text : List Char), m = m' → M = M' →
      parse_document m M text = parse_document m' M' text := by
  intro m M m' M' text h1 h2
  rw [h1, h2]

/-- C8 (witness): determinism at a concrete document. -/
theorem C8_witness :
    50 = 50 ∧ 800 = 800 ∧
      parse_document 50 800 (cs "1-1-1. T\nsome words") =
        parse_document 50 800 (cs "1-1-1. T\nsome words") :=
  ⟨rfl, rfl, C8_deterministic 50 800 50 800 (cs "1-1-1. T\nsome words") rfl rfl⟩

/-- C9: `min_tokens` has no effect on `parse_document` beyond construction
validation — any two valid configurations sharing `max_tokens` give
identical outputs (the source's `if tokens < self.min_tokens: pass` is a
no-op) — and a unit whose normalized body fits `max_tokens` is emitted as
exactly one verbatim chunk, however far below `min_tokens` it falls. -/
theorem C9_min_tokens_irrelevant :
    (∀ (m1 m2 M : Nat) (text : List Char), 0 < m1 → m1 < M → 0 < m2 → m2 < M →
      parse_document m1 M text = parse_document m2 M text) ∧
    (∀ (minT maxT : Nat) (num title : List Char) (sub : Option (List Char))
      (hier : List (List Char)) (body : List Char),
      trim_whitespace body ≠ [] → estimate_tokens (trim_whitespace body) ≤ maxT →
      chunk_text_body minT maxT num title sub hier body =
        [make_chunk (trim_whitespace body) num title sub hier]) := by
  constructor
  · intro m1 m2 M text _ _ _ _
    rw [parse_document_min_zero m1 M text, parse_document_min_zero m2 M text]
  · exact chunk_text_body_small

/-- C9 (witness): equal outputs for bounds `(1, 800)` and `(400, 800)`, and
single-chunk emission of a 4-character body far below `min_tokens = 50`. -/
theorem C9_witness :
    (0 < 1 ∧ 1 < 800 ∧ 0 < 400 ∧ 400 < 800 ∧
      parse_document 1 800 (cs "1-1-1. T\nbody words here") =
        parse_document 400 800 (cs "1-1-1. T\nbody words here")) ∧
    (trim_whitespace (cs "tiny") ≠ [] ∧
      estimate_tokens (trim_whitespace (cs "tiny")) ≤ 800 ∧
      chunk_text_body 50 800 (cs "1-1-1") (cs "T") none [] (cs "tiny") =
        [make_chunk (trim_whitespace (cs "tiny")) (cs "1-1-1") (cs "T") none []]) :=
  ⟨⟨by decide, by decide, by decide, by decide,
      C9_min_tokens_irrelevant.1 1 400 800 (cs "1-1-1. T\nbody words here")
        (by decide) (by decide) (by decide) (by decide)⟩,
    ⟨by decide, by decide,
      C9_min_tokens_irrelevant.2 50 800 (cs "1-1-1") (cs "T") none [] (cs "tiny")
        (by decide) (by decide)⟩⟩

/-- C10: for every non-empty whitespace-trimmed string the sentence splitter
returns a non-empty list of non-empty pieces, the whole string being the
single piece when no punctuation break matches; consequently the hard
character-slice branch of `_chunk_text_body` (guarded by
`split_on_sentences (trim_whitespace body) = []` with a non-empty
normalized body) is unreachable. -/
theorem C10_splitter_nonempty :
    (∀ s : List Char, stripCh s = s → s ≠ [] → split_on_sentences s ≠ []) ∧
    (∀ s : List Char, ∀ p ∈ split_on_sentences s, p ≠ []) ∧
    (∀ s : List Char, stripCh s = s → s ≠ [] → (∀ c ∈ s, isPunctCh c = false) →
      split_on_sentences s = [s]) ∧
    (∀ body : List Char, trim_whitespace body ≠ [] →
      split_on_sentences (trim_whitespace body) ≠ []) := by
  refine ⟨?_, ?_, ?_, ?_⟩
  · intro s hst hne h
    have h1 := split_on_sentences_eq_nil h
    have hall := all_space_of_dropWs_eq_nil h1
    have hl : lstripCh s = [] := by
      rw [lstripCh, List.dropWhile_eq_nil_iff]
      exact fun c hc => hall c hc
    have : stripCh s = [] := by
      rw [stripCh, hl]
      rfl
    rw [hst] at this
    exact hne this
  · intro s p hp
    have := List.of_mem_filter hp
    simpa using this
  · intro s hst hne hnp
    rw [split_on_sentences_no_punct hnp, hst, if_neg hne]
  · intro body h hsplit
    have h1 := split_on_sentences_eq_nil hsplit
    rw [dropWs_trim] at h1
    exact h (trim_eq_nil_of_dropWs h1)

/-- C10 (witness): the splitter facts at the concrete string `"abc"` and a
concrete body. -/
theorem C10_witness :
    (stripCh (cs "abc") = cs "abc" ∧ cs "abc" ≠ [] ∧
      split_on_sentences (cs "abc") ≠ []) ∧
    ((cs "abc") ∈ split_on_sentences (cs "abc") ∧ cs "abc" ≠ []) ∧
    ((∀ c ∈ cs "abc", isPunctCh c = false) ∧ split_on_sentences (cs "abc") = [cs "abc"]) ∧
    (trim_whitespace (cs " abc ") ≠ [] ∧
      split_on_sentences (trim_whitespace (cs " abc ")) ≠ []) :=
  ⟨⟨by decide, by decide, C10_splitter_nonempty.1 (cs "abc") (by decide) (by decide)⟩,
    ⟨by decide, C10_splitter_nonempty.2.1 (cs "abc") (cs "abc") (by decide)⟩,
    ⟨by decide, C10_splitter_nonempty.2.2.1 (cs "abc") (by decide) (by decide) (by decide)⟩,
    ⟨by decide, C10_splitter_nonempty.2.2.2 (cs " abc ") (by decide)⟩⟩
